import Mathlib

/-
  Verification of the Flowly habit tracker's streak/statistics derivation
  engine against its natural-language specification.

  Shallow embedding conventions:
  * Calendar days are modelled as integers (the proleptic Gregorian ordinal
    used by Python's `date.toordinal`, so "0001-01-01" is day 1).  ISO date
    strings compare lexicographically exactly as their ordinals compare, so
    every SQL `BETWEEN` / Python comparison on date strings becomes an
    integer comparison.
  * Strings from the program (habit names, note contents, timestamps) are
    modelled as `List Char`.  SQLite's default BINARY collation and Python
    string comparison are both lexicographic by code point, embedded below
    as `strLE` / `strLT`; Python's `str.lower()` is `lower`.
  * The SQLite store is modelled by explicit lists: the `habits` table as
    `List Habit` and the `habit_logs` table as `List LogEntry`.  The
    `UNIQUE(habit_id, day)` constraint together with `INSERT OR IGNORE`
    appears as the membership test inside `mark_done`.
  * Fallible operations return `Option` / `Except`; a `none` models the
    Python exception raised on that path (e.g. the `IndexError` from
    `days_list[0]` on an empty list).
  * Python `float` arithmetic on the small ratios appearing here is exact
    enough to be order-isomorphic to the rational arithmetic used below, so
    rates are modelled as `ℚ`.
-/

/-- A row of the `habits` table (src/db.py): id, unique name, creation
timestamp. -/
structure Habit where
  id : ℕ
  name : List Char
  created_at : List Char
deriving DecidableEq

/-- A row of the `habit_logs` table (src/db.py): one completion record,
identified up to the `UNIQUE(habit_id, day)` constraint by its
(habit, day) pair. -/
structure LogEntry where
  habit_id : ℕ
  day : ℤ
  created_at : List Char
deriving DecidableEq

/-- A row of the `notes` table (src/db.py). -/
structure Note where
  id : ℕ
  habit_id : ℕ
  content : List Char
  created_at : List Char
deriving DecidableEq

/-- Lexicographic (code-point) strict order on strings: the order SQLite's
BINARY collation and Python string comparison both implement. -/
def strLT : List Char → List Char → Bool
  | [], [] => false
  | [], _ :: _ => true
  | _ :: _, [] => false
  | a :: as, b :: bs => if a = b then strLT as bs else decide (a < b)

/-- Lexicographic (code-point) order on strings, reflexive version. -/
def strLE : List Char → List Char → Bool
  | [], _ => true
  | _ :: _, [] => false
  | a :: as, b :: bs => if a = b then strLE as bs else decide (a < b)

/-- Python's `str.lower()` restricted to the simple one-to-one case mapping
(sufficient for the ASCII habit names the program compares). -/
def lower (s : List Char) : List Char := s.map Char.toLower

theorem strLE_refl (a : List Char) : strLE a a = true := by
  induction a with
  | nil => rfl
  | cons x xs ih => simp [strLE, ih]

theorem strLE_total (a b : List Char) : strLE a b = true ∨ strLE b a = true := by
  induction a generalizing b with
  | nil => left; rfl
  | cons x xs ih =>
    cases b with
    | nil => right; rfl
    | cons y ys =>
      by_cases hxy : x = y
      · subst hxy
        rcases ih ys with h | h
        · left; simpa [strLE] using h
        · right; simpa [strLE] using h
      · rcases lt_or_gt_of_ne hxy with h | h
        · left; simp [strLE, hxy, h]
        · right
          have hyx : y ≠ x := fun hc => hxy hc.symm
          simp [strLE, hyx, h]

theorem strLE_trans (a b c : List Char) (hab : strLE a b = true)
    (hbc : strLE b c = true) : strLE a c = true := by
  induction a generalizing b c with
  | nil => rfl
  | cons x xs ih =>
    cases b with
    | nil => simp [strLE] at hab
    | cons y ys =>
      cases c with
      | nil => simp [strLE] at hbc
      | cons z zs =>
        by_cases hxy : x = y
        · subst hxy
          by_cases hyz : x = z
          · subst hyz
            simp only [strLE, if_pos rfl] at hab hbc ⊢
            exact ih ys zs hab hbc
          · simp only [strLE, if_pos rfl] at hab
            simp only [strLE, if_neg hyz] at hbc ⊢
            exact hbc
        · by_cases hyz : y = z
          · subst hyz
            simp only [strLE, if_neg hxy] at hab ⊢
            exact hab
          · simp only [strLE, if_neg hxy] at hab
            simp only [strLE, if_neg hyz] at hbc
            have hxz : x < z := lt_trans (of_decide_eq_true hab) (of_decide_eq_true hbc)
            simp [strLE, ne_of_lt hxz, hxz]

-- ---------------------------------------------------------------------------
-- Date utilities (src/src/models.py)
-- ---------------------------------------------------------------------------

/-- `days_back` (src/src/models.py:24-27): the list of the last `n` days,
oldest first, inclusive of `today`.  Python's `range(n)` is empty for
`n ≤ 0`, embedded by `Int.toNat`. -/
def days_back (n : ℤ) (today : ℤ) : List ℤ :=
  (List.range n.toNat).map (fun i : ℕ => (today - (n - 1)) + (i : ℤ))

theorem days_back_length (n today : ℤ) : (days_back n today).length = n.toNat := by
  rw [days_back, List.length_map, List.length_range]

theorem range_map_head? (m : ℕ) (f : ℕ → ℤ) :
    ((List.range m).map f).head? = if m = 0 then none else some (f 0) := by
  cases m with
  | zero => simp
  | succ k => simp [List.range_succ_eq_map]

theorem days_back_head? (n today : ℤ) (h : 1 ≤ n) :
    (days_back n today).head? = some (today - (n - 1)) := by
  have hm : n.toNat ≠ 0 := by omega
  rw [days_back, range_map_head?, if_neg hm]
  norm_num

theorem days_back_getLast? (n today : ℤ) (h : 1 ≤ n) :
    (days_back n today).getLast? = some today := by
  obtain ⟨k, hk⟩ : ∃ k : ℕ, n.toNat = k + 1 := ⟨n.toNat - 1, by omega⟩
  simp only [days_back, hk, List.range_succ, List.map_append, List.map_cons,
    List.map_nil, List.getLast?_concat]
  congr 1
  omega

theorem chain'_range_map (m : ℕ) (k : ℤ) :
    List.Chain' (fun a b => b = a + 1) ((List.range m).map (fun i : ℕ => k + (i : ℤ))) := by
  induction m generalizing k with
  | zero => simp
  | succ p ih =>
    rw [List.range_succ_eq_map, List.map_cons, List.map_map]
    have hmap : (List.map ((fun i : ℕ => k + (i : ℤ)) ∘ Nat.succ) (List.range p)) =
        (List.range p).map (fun i : ℕ => (k + 1) + (i : ℤ)) := by
      apply List.map_congr_left
      intro a _
      simp [Function.comp]
      omega
    rw [hmap, List.chain'_cons']
    refine ⟨?_, ih (k + 1)⟩
    intro y hy
    rw [range_map_head?] at hy
    by_cases hp : p = 0
    · simp [hp] at hy
    · simp [hp] at hy
      omega

-- ---------------------------------------------------------------------------
-- Streak engine (src/src/models.py:94-102, src/src/ui_stats.py:97-128)
-- ---------------------------------------------------------------------------

/-- The body of the `while d.isoformat() in done` loop of `current_streak`
(src/src/models.py:97-102), as a fueled recursion: each iteration tests
membership of the current day and steps one day back. -/
def streak_go (done : Finset ℤ) : ℕ → ℤ → ℕ
  | 0, _ => 0
  | fuel + 1, d => if d ∈ done then streak_go done fuel (d - 1) + 1 else 0

/-- `current_streak`'s loop (src/src/models.py:94-102) over the set `done`
of days holding a completion record: walk backward from `today` while the
day is in `done`.  The loop can succeed on at most `done.card` consecutive
membership tests, so `done.card + 1` iterations always reach the exit test
(proved by `current_streak_eq`). -/
def current_streak (done : Finset ℤ) (today : ℤ) : ℕ :=
  streak_go done (done.card + 1) today

theorem streak_go_spec (done : Finset ℤ) :
    ∀ (fuel k : ℕ) (d : ℤ), k < fuel →
      (∀ i : ℕ, i < k → d - (i : ℤ) ∈ done) → d - (k : ℤ) ∉ done →
      streak_go done fuel d = k := by
  intro fuel
  induction fuel with
  | zero => intro k d hk; omega
  | succ f ih =>
    intro k d hk hin hout
    match k with
    | 0 =>
      have hd : d ∉ done := by simpa using hout
      simp [streak_go, hd]
    | k + 1 =>
      have hd : d ∈ done := by simpa using hin 0 (by omega)
      simp only [streak_go, if_pos hd, Nat.add_right_cancel_iff]
      apply ih k (d - 1) (by omega)
      · intro i hi
        have h2 := hin (i + 1) (by omega)
        have : d - ((i : ℤ) + 1) = d - 1 - (i : ℤ) := by ring
        rwa [show ((i + 1 : ℕ) : ℤ) = (i : ℤ) + 1 by push_cast; ring, this] at h2
      · have : d - ((k : ℤ) + 1) = d - 1 - (k : ℤ) := by ring
        rwa [show ((k + 1 : ℕ) : ℤ) = (k : ℤ) + 1 by push_cast; ring, this] at hout

theorem streak_le_card (done : Finset ℤ) (today : ℤ) (k : ℕ)
    (hin : ∀ i : ℕ, i < k → today - (i : ℤ) ∈ done) : k ≤ done.card := by
  have himg : (Finset.range k).image (fun i : ℕ => today - (i : ℤ)) ⊆ done := by
    intro x hx
    obtain ⟨i, hi, rfl⟩ := Finset.mem_image.mp hx
    exact hin i (Finset.mem_range.mp hi)
  have hcard : ((Finset.range k).image (fun i : ℕ => today - (i : ℤ))).card =
      (Finset.range k).card := by
    apply Finset.card_image_of_injOn
    intro i _ j _ hij
    have hij' : today - (i : ℤ) = today - (j : ℤ) := hij
    omega
  have := Finset.card_le_card himg
  rw [hcard, Finset.card_range] at this
  exact this

/-- The characterization of the streak loop used by every claim that
mentions `currentStreak`. -/
theorem current_streak_eq (done : Finset ℤ) (today : ℤ) (k : ℕ)
    (hin : ∀ i : ℕ, i < k → today - (i : ℤ) ∈ done)
    (hout : today - (k : ℤ) ∉ done) :
    current_streak done today = k := by
  have hk : k < done.card + 1 := by
    have := streak_le_card done today k hin
    omega
  exact streak_go_spec done (done.card + 1) k today hk hin hout

-- ---------------------------------------------------------------------------
-- Data access layer (src/src/models.py, src/src/db.py)
-- ---------------------------------------------------------------------------

/-- The name of the reserved synthetic habit, "General". -/
def general_name : List Char := ['G', 'e', 'n', 'e', 'r', 'a', 'l']

/-- Order on habits used by `list_habits`: SQLite `ORDER BY name` under the
default BINARY collation, i.e. code-point lexicographic and case-sensitive. -/
def name_le (h1 h2 : Habit) : Prop := strLE h1.name h2.name = true

instance : DecidableRel name_le := fun a b => instDecidableEqBool (strLE a.name b.name) true

instance : IsTotal Habit name_le := ⟨fun a b => strLE_total a.name b.name⟩

instance : IsTrans Habit name_le := ⟨fun a b c => strLE_trans a.name b.name c.name⟩

/-- `list_habits` (src/src/models.py:30-34): all stored habits sorted by
`ORDER BY name;` (BINARY collation).  A stable sort yields the same list as
the SQL result since stored names are UNIQUE. -/
def list_habits (habit_rows : List Habit) : List Habit :=
  List.insertionSort name_le habit_rows

/-- `mark_done` (src/src/models.py:64-72): `INSERT OR IGNORE` under the
`UNIQUE(habit_id, day)` constraint inserts a fresh row exactly when no row
with the same (habit, day) pair exists. -/
def mark_done (s : List LogEntry) (hid : ℕ) (d : ℤ) (now : List Char) : List LogEntry :=
  if s.any (fun r => decide (r.habit_id = hid ∧ r.day = d)) then s
  else s ++ [⟨hid, d, now⟩]

/-- `unmark_done` (src/src/models.py:74-79): `DELETE FROM habit_logs WHERE
habit_id=? AND day=?;` removes every row matching the pair. -/
def unmark_done (s : List LogEntry) (hid : ℕ) (d : ℤ) : List LogEntry :=
  s.filter (fun r => !decide (r.habit_id = hid ∧ r.day = d))

/-- Number of stored completion records for one (habit, day) pair. -/
def pair_count (s : List LogEntry) (hid : ℕ) (d : ℤ) : ℕ :=
  (s.filter (fun r => decide (r.habit_id = hid ∧ r.day = d))).length

/-- The storage invariant of the `habit_logs` table: at most one record per
(habit, day) pair (db.py `UNIQUE(habit_id, day)`). -/
def at_most_one_per_pair (s : List LogEntry) : Prop :=
  ∀ hid d, pair_count s hid d ≤ 1

/-- `get_done_days_in_range` (src/src/models.py:81-92): days of the habit's
completion records inside the inclusive range, `ORDER BY day`. -/
def get_done_days_in_range (logs : List LogEntry) (hid : ℕ) (s e : ℤ) : List ℤ :=
  List.insertionSort (· ≤ ·)
    ((logs.filter (fun l => decide (l.habit_id = hid ∧ s ≤ l.day ∧ l.day ≤ e))).map LogEntry.day)

/-- Day ordinal of "0001-01-01", the lower bound `current_streak` passes to
`get_done_days_in_range` (src/src/models.py:96). -/
def day0001 : ℤ := 1

/-- Day ordinal of "2000-01-01", the lower bound the milestones tab passes
to `get_done_days_in_range` (src/ui_milestones.py:139). -/
def day2000 : ℤ := 730120

/-- `current_streak` of models.py applied to a concrete store: builds the
set of done days up to today and runs the backward-walking loop. -/
def models_current_streak (logs : List LogEntry) (hid : ℕ) (today : ℤ) : ℕ :=
  current_streak (get_done_days_in_range logs hid day0001 today).toFinset today

-- ---------------------------------------------------------------------------
-- C1: current streak counts consecutive done days backward from today
-- ---------------------------------------------------------------------------

/-- C1: for every set `done` of days carrying a completion record for the
habit, `current_streak` walking backward from `today` returns exactly `k`
whenever the habit is done on `today, today - 1, …, today - k + 1` and not
on `today - k`; in particular the result is `0` when `today` itself has no
record (the case `k = 0`). -/
theorem currentStreak_counts_consecutive_days (done : Finset ℤ) (today : ℤ) (k : ℕ)
    (hin : ∀ i : ℕ, i < k → today - (i : ℤ) ∈ done)
    (hout : today - (k : ℤ) ∉ done) :
    current_streak done today = k :=
  current_streak_eq done today k hin hout

/-- Witness for C1: a habit done today and the two previous days but not
three days ago has streak exactly 3; a habit not done today has streak 0. -/
theorem currentStreak_counts_consecutive_days_witness :
    current_streak ({0, -1, -2} : Finset ℤ) 0 = 3 ∧
    current_streak ({-1, -2} : Finset ℤ) 0 = 0 :=
  ⟨currentStreak_counts_consecutive_days ({0, -1, -2} : Finset ℤ) 0 3
      (by decide) (by decide),
   currentStreak_counts_consecutive_days ({-1, -2} : Finset ℤ) 0 0
      (by decide) (by decide)⟩

-- ---------------------------------------------------------------------------
-- C7: lastNDays shape; n <= 0 returns [] instead of failing
-- ---------------------------------------------------------------------------

/-- C7 (amended): for every `n ≥ 1`, `days_back n` returns exactly `n`
days, consecutive and strictly ascending (each element is its predecessor
plus one), starting at `today - (n - 1)` and ending at `today`; for
`n ≤ 0` it returns the empty list (the spec's claim that such a call fails
with `InvalidArgument` is refuted by `lastNDays_nonpositive_returns_value`). -/
theorem lastNDays_shape (n today : ℤ) :
    (days_back n today).length = n.toNat ∧
    List.Chain' (fun a b => b = a + 1) (days_back n today) ∧
    (days_back n today).head? = (if 1 ≤ n then some (today - (n - 1)) else none) ∧
    (days_back n today).getLast? = (if 1 ≤ n then some today else none) := by
  refine ⟨days_back_length n today, ?_, ?_, ?_⟩
  · rw [days_back]
    exact chain'_range_map n.toNat (today - (n - 1))
  · by_cases h : 1 ≤ n
    · rw [if_pos h]
      exact days_back_head? n today h
    · have h0 : n.toNat = 0 := by omega
      rw [if_neg h]
      simp [days_back, h0]
  · by_cases h : 1 ≤ n
    · rw [if_pos h]
      exact days_back_getLast? n today h
    · have h0 : n.toNat = 0 := by omega
      rw [if_neg h]
      simp [days_back, h0]

/-- Counterexample for C7 as stated: for `n ≤ 0` the code does not fail
with `InvalidArgument` — `range(n)` is simply empty, so `days_back`
returns the empty list as an ordinary value. -/
theorem lastNDays_nonpositive_returns_value :
    days_back 0 5 = [] ∧ days_back (-3) 5 = [] :=
  ⟨rfl, rfl⟩

-- ---------------------------------------------------------------------------
-- C8: markDone / unmarkDone idempotence and the per-pair uniqueness invariant
-- ---------------------------------------------------------------------------

theorem length_filter_partition {α : Type} (p : α → Bool) (l : List α) :
    (l.filter p).length + (l.filter (fun a => !p a)).length = l.length := by
  induction l with
  | nil => rfl
  | cons x xs ih =>
    by_cases hx : p x = true <;>
      simp [List.filter_cons, hx, Bool.not_eq_true] at * <;> omega

theorem pair_count_pos_iff_any (s : List LogEntry) (hid : ℕ) (d : ℤ) :
    0 < pair_count s hid d ↔
      s.any (fun r => decide (r.habit_id = hid ∧ r.day = d)) = true := by
  rw [pair_count, List.length_pos_iff_exists_mem, List.any_eq_true]
  constructor
  · rintro ⟨x, hx⟩
    exact ⟨x, (List.mem_filter.mp hx).1, (List.mem_filter.mp hx).2⟩
  · rintro ⟨x, hx, hpx⟩
    exact ⟨x, List.mem_filter.mpr ⟨hx, hpx⟩⟩

/-- Every one-record store satisfies the per-pair uniqueness invariant. -/
theorem single_record_invariant (r : LogEntry) : at_most_one_per_pair [r] := by
  intro hid d
  rw [pair_count]
  by_cases h : r.habit_id = hid ∧ r.day = d <;> simp [List.filter_cons, h]

/-- C8: `mark_done` is idempotent and, on a store satisfying the
`UNIQUE(habit_id, day)` invariant, leaves exactly one record for the pair;
the invariant is preserved.  `unmark_done` on an unmarked pair is a no-op,
and otherwise removes exactly the records of that pair (it is a sublist of
the store, shorter by precisely the number of matching records, holding no
record of the pair), preserving the invariant as well. -/
theorem markDone_unmarkDone_idempotent (s : List LogEntry) (hid : ℕ) (d : ℤ)
    (now1 now2 : List Char) (hinv : at_most_one_per_pair s) :
    mark_done (mark_done s hid d now1) hid d now2 = mark_done s hid d now1 ∧
    pair_count (mark_done s hid d now1) hid d = 1 ∧
    (pair_count s hid d = 0 → unmark_done s hid d = s) ∧
    pair_count (unmark_done s hid d) hid d = 0 ∧
    (unmark_done s hid d).Sublist s ∧
    (unmark_done s hid d).length = s.length - pair_count s hid d ∧
    at_most_one_per_pair (mark_done s hid d now1) ∧
    at_most_one_per_pair (unmark_done s hid d) := by
  have hcount_unmark : pair_count (unmark_done s hid d) hid d = 0 := by
    rw [unmark_done, pair_count, List.filter_filter]
    simp
  have hsub : (unmark_done s hid d).Sublist s := by
    rw [unmark_done]
    exact List.filter_sublist s
  have hlen : (unmark_done s hid d).length = s.length - pair_count s hid d := by
    have hpart := length_filter_partition
      (fun r => decide (r.habit_id = hid ∧ r.day = d)) s
    rw [unmark_done, pair_count]
    omega
  have hinv_unmark : at_most_one_per_pair (unmark_done s hid d) := by
    intro hid' d'
    calc pair_count (unmark_done s hid d) hid' d'
        ≤ pair_count s hid' d' :=
          List.Sublist.length_le (List.Sublist.filter _ hsub)
      _ ≤ 1 := hinv hid' d'
  by_cases hany : s.any (fun r => decide (r.habit_id = hid ∧ r.day = d)) = true
  -- the pair is already present in the store
  · have hmark : mark_done s hid d now1 = s := by rw [mark_done, if_pos hany]
    have hcount1 : pair_count s hid d = 1 := by
      have hpos := (pair_count_pos_iff_any s hid d).mpr hany
      have := hinv hid d
      omega
    refine ⟨?_, ?_, ?_, hcount_unmark, hsub, hlen, ?_, hinv_unmark⟩
    · rw [hmark, mark_done, if_pos hany]
    · rw [hmark]; exact hcount1
    · intro h0; omega
    · rw [hmark]; exact hinv
  -- the pair is absent: the insert really appends one record
  · have hmark : mark_done s hid d now1 = s ++ [⟨hid, d, now1⟩] := by
      rw [mark_done, if_neg hany]
    have hcount0 : pair_count s hid d = 0 := by
      by_contra hne
      exact hany ((pair_count_pos_iff_any s hid d).mp (by omega))
    have h1 : s.filter (fun r => decide (r.habit_id = hid ∧ r.day = d)) = [] := by
      rw [pair_count] at hcount0
      exact List.length_eq_zero.mp hcount0
    have hall : ∀ x ∈ s, ¬(x.habit_id = hid ∧ x.day = d) := by
      intro x hx hpx
      have : 0 < pair_count s hid d :=
        (pair_count_pos_iff_any s hid d).mpr
          (List.any_eq_true.mpr ⟨x, hx, by simpa using hpx⟩)
      omega
    have hnoop : unmark_done s hid d = s := by
      rw [unmark_done]
      apply List.filter_eq_self.mpr
      intro a ha
      simp [hall a ha]
    have hcountm : pair_count (mark_done s hid d now1) hid d = 1 := by
      rw [hmark, pair_count, List.filter_append, h1]
      simp
    refine ⟨?_, hcountm, fun _ => hnoop, hcount_unmark, hsub, hlen, ?_, hinv_unmark⟩
    · have hany2 : (s ++ [(⟨hid, d, now1⟩ : LogEntry)]).any
          (fun r => decide (r.habit_id = hid ∧ r.day = d)) = true := by
        rw [List.any_append]
        simp
      rw [hmark, mark_done, if_pos hany2]
    · intro hid' d'
      rw [hmark, pair_count, List.filter_append, List.length_append]
      by_cases hsame : hid' = hid ∧ d' = d
      · obtain ⟨rfl, rfl⟩ := hsame
        rw [h1]
        simp
      · have hpr : (decide ((⟨hid, d, now1⟩ : LogEntry).habit_id = hid' ∧
            (⟨hid, d, now1⟩ : LogEntry).day = d')) = false := by
          apply decide_eq_false
          intro hc
          exact hsame ⟨hc.1.symm, hc.2.symm⟩
        have h2 : ([(⟨hid, d, now1⟩ : LogEntry)].filter
            (fun r => decide (r.habit_id = hid' ∧ r.day = d'))).length = 0 := by
          have hne : ¬((decide ((⟨hid, d, now1⟩ : LogEntry).habit_id = hid' ∧
              (⟨hid, d, now1⟩ : LogEntry).day = d')) = true) := by
            rw [hpr]
            exact Bool.false_ne_true
          rw [List.filter_cons, if_neg hne]
          rfl
        have := hinv hid' d'
        rw [pair_count] at this
        omega

/-- Witness for C8: on the one-record store `[(1, day 5)]`, marking (1, 5)
twice equals marking once, one record remains for the pair, and unmarking
the absent pair (2, 3) is a no-op. -/
theorem markDone_unmarkDone_idempotent_witness :
    mark_done (mark_done [⟨1, 5, []⟩] 1 5 []) 1 5 ['x'] = mark_done [⟨1, 5, []⟩] 1 5 [] ∧
    pair_count (mark_done [⟨1, 5, []⟩] 1 5 []) 1 5 = 1 ∧
    unmark_done [⟨1, 5, []⟩] 2 3 = [⟨1, 5, []⟩] := by
  have h := markDone_unmarkDone_idempotent [⟨1, 5, []⟩] 1 5 [] ['x']
    (single_record_invariant ⟨1, 5, []⟩)
  have h2 := markDone_unmarkDone_idempotent [⟨1, 5, []⟩] 2 3 [] []
    (single_record_invariant ⟨1, 5, []⟩)
  exact ⟨h.1, h.2.1, h2.2.2.1 (by decide)⟩

-- ---------------------------------------------------------------------------
-- C9: list_habits sorts case-sensitively, not case-insensitively
-- ---------------------------------------------------------------------------

/-- Counterexample for C9 as stated: with stored habits named "a" and "B",
`ORDER BY name` under SQLite's BINARY collation puts "B" (code point 66)
before "a" (code point 97), so the output is not sorted by name ascending
case-insensitively — case-insensitive ascending order would demand "a"
before "B" since lower("a") < lower("B"). -/
theorem listHabits_not_case_insensitive :
    (list_habits [⟨1, ['a'], []⟩, ⟨2, ['B'], []⟩]).map Habit.name = [['B'], ['a']] ∧
    ¬ List.Sorted (fun h1 h2 : Habit => strLE (lower h1.name) (lower h2.name) = true)
      (list_habits [⟨1, ['a'], []⟩, ⟨2, ['B'], []⟩]) := by
  constructor
  · decide
  · intro hs
    rw [show list_habits [⟨1, ['a'], []⟩, ⟨2, ['B'], []⟩] =
        [⟨2, ['B'], []⟩, ⟨1, ['a'], []⟩] from by decide] at hs
    rw [List.sorted_cons] at hs
    have h2 := hs.1 ⟨1, ['a'], []⟩ (by simp)
    exact absurd h2 (by decide)

/-- C9 (amended): `list_habits` returns the stored habits sorted by name
ascending under the case-sensitive code-point order that SQLite's default
BINARY collation implements (so "B" sorts before "a"). -/
theorem listHabits_sorted_case_sensitive (habit_rows : List Habit) :
    (list_habits habit_rows).Perm habit_rows ∧
    List.Sorted name_le (list_habits habit_rows) :=
  ⟨List.perm_insertionSort name_le habit_rows,
   List.sorted_insertionSort name_le habit_rows⟩

-- ---------------------------------------------------------------------------
-- Range aggregator: overall stats (src/src/models.py:136-166)
-- ---------------------------------------------------------------------------

/-- The dictionary returned by `stats_for_range`. -/
structure StatsRec where
  habits : ℕ
  days : ℤ
  done : ℕ
  total : ℕ
  rate : ℚ
deriving DecidableEq

/-- `stats_for_range` (src/src/models.py:136-166): overall stats across all
habits for the last `days` days.  With no habits it returns the zero record
immediately; otherwise it resolves the window via `days_back`, counts every
completion record in it (regardless of habit), and computes
`total = habits × days` and `rate = done / total` (0 if `total` is 0).
`none` models the `IndexError` that `days_list[0]` raises when `days_back`
is empty. -/
def stats_for_range (habit_list : List Habit) (logs : List LogEntry)
    (days today : ℤ) : Option StatsRec :=
  if habit_list.isEmpty then some ⟨0, days, 0, 0, 0⟩
  else
    match (days_back days today).head?, (days_back days today).getLast? with
    | some start_day, some end_day =>
        some { habits := habit_list.length
               days := ((days_back days today).length : ℤ)
               done := (logs.filter
                 (fun l => decide (start_day ≤ l.day ∧ l.day ≤ end_day))).length
               total := habit_list.length * (days_back days today).length
               rate := if habit_list.length * (days_back days today).length = 0 then 0
                 else ((logs.filter
                     (fun l => decide (start_day ≤ l.day ∧ l.day ≤ end_day))).length : ℚ) /
                   ((habit_list.length * (days_back days today).length : ℕ) : ℚ) }
    | _, _ => none

/-- C6: with zero habits the overall stats are
`{habits 0, done 0, total 0, rate 0}` (for any day-count), and otherwise,
for every day-count `days ≥ 1`, `totalSlots = habitCount × dayCount` and
`rate = doneCount / totalSlots` where `doneCount` counts the completion
records of the window `today - (days - 1) .. today`. -/
theorem overallStats_formula (habit_list : List Habit) (logs : List LogEntry)
    (days today : ℤ) :
    (habit_list = [] → stats_for_range habit_list logs days today = some ⟨0, days, 0, 0, 0⟩) ∧
    (habit_list ≠ [] → 1 ≤ days →
      stats_for_range habit_list logs days today =
        some { habits := habit_list.length
               days := days
               done := (logs.filter
                 (fun l => decide (today - (days - 1) ≤ l.day ∧ l.day ≤ today))).length
               total := habit_list.length * days.toNat
               rate := ((logs.filter
                   (fun l => decide (today - (days - 1) ≤ l.day ∧ l.day ≤ today))).length : ℚ) /
                 ((habit_list.length * days.toNat : ℕ) : ℚ) }) := by
  constructor
  · intro h
    subst h
    rfl
  · intro hne hdays
    have hempty : habit_list.isEmpty = false := by
      cases habit_list with
      | nil => exact absurd rfl hne
      | cons x xs => rfl
    rw [stats_for_range, hempty]
    rw [days_back_head? days today hdays, days_back_getLast? days today hdays]
    simp only [Bool.false_eq_true, if_false, days_back_length]
    have hlen0 : habit_list.length ≠ 0 := by
      intro hc
      exact hne (List.length_eq_zero.mp hc)
    have htot : habit_list.length * days.toNat ≠ 0 :=
      Nat.mul_ne_zero hlen0 (by omega)
    rw [if_neg htot]
    have hcast : ((days.toNat : ℕ) : ℤ) = days := by omega
    rw [hcast]

/-- Witness for C6: a store with no habits yields the all-zero record (the
spec's zero-habit scenario), and a store with one habit over a 3-day window
yields `total = 1 × 3` with `rate = 0 / 3`. -/
theorem overallStats_formula_witness :
    stats_for_range [] [] 5 0 = some ⟨0, 5, 0, 0, 0⟩ ∧
    stats_for_range [⟨1, ['a'], []⟩] [] 3 0 =
      some { habits := 1, days := 3, done := 0, total := 3,
             rate := ((0 : ℕ) : ℚ) / ((3 : ℕ) : ℚ) } :=
  ⟨(overallStats_formula [] [] 5 0).1 rfl,
   (overallStats_formula [⟨1, ['a'], []⟩] [] 3 0).2 (by decide) (by decide)⟩

-- ---------------------------------------------------------------------------
-- C2: the "General" habit and the models-layer statistics
-- ---------------------------------------------------------------------------

/-- Counterexample for C2 as stated: the models-layer overall-stats
operation `stats_for_range` does not exclude the reserved "General" habit —
adding a "General" habit changes its result (the habit count rises from 1
to 2, and with it the total slots and the rate denominator). -/
theorem general_not_excluded_from_stats :
    (stats_for_range [⟨1, ['a'], []⟩, ⟨2, general_name, []⟩] [] 7 0).map StatsRec.habits
      = some 2 ∧
    (stats_for_range [⟨1, ['a'], []⟩] [] 7 0).map StatsRec.habits = some 1 ∧
    stats_for_range [⟨1, ['a'], []⟩, ⟨2, general_name, []⟩] [] 7 0 ≠
      stats_for_range [⟨1, ['a'], []⟩] [] 7 0 := by
  refine ⟨rfl, rfl, fun h => ?_⟩
  have h2 := congrArg (Option.map StatsRec.habits) h
  rw [show (stats_for_range [⟨1, ['a'], []⟩, ⟨2, general_name, []⟩] [] 7 0).map StatsRec.habits
      = some 2 from rfl,
    show (stats_for_range [⟨1, ['a'], []⟩] [] 7 0).map StatsRec.habits = some 1 from rfl] at h2
  exact absurd h2 (by decide)

-- ---------------------------------------------------------------------------
-- Range aggregator: per-habit stats (src/src/models.py:168-197)
-- ---------------------------------------------------------------------------

/-- The per-habit done count of the `GROUP BY habit_id` query of
`per_habit_last_n_days` (src/src/models.py:178-189): the number of the
habit's completion records with day in the inclusive range (0 when the
habit has no row in the grouped result). -/
def count_in_range (logs : List LogEntry) (hid : ℕ) (s e : ℤ) : ℕ :=
  (logs.filter (fun l => decide (l.habit_id = hid ∧ s ≤ l.day ∧ l.day ≤ e))).length

theorem get_done_days_length (logs : List LogEntry) (hid : ℕ) (s e : ℤ) :
    (get_done_days_in_range logs hid s e).length = count_in_range logs hid s e := by
  rw [get_done_days_in_range, count_in_range,
    (List.perm_insertionSort _ _).length_eq, List.length_map]

theorem get_done_days_toFinset (logs : List LogEntry) (hid : ℕ) (s e : ℤ) :
    (get_done_days_in_range logs hid s e).toFinset =
      ((logs.filter (fun l => decide (l.habit_id = hid ∧ s ≤ l.day ∧ l.day ≤ e))).map
        LogEntry.day).toFinset :=
  List.toFinset_eq_of_perm _ _ (List.perm_insertionSort _ _)

/-- The sort key of `per_habit_last_n_days` (src/src/models.py:196):
Python's stable ascending sort on the tuple `(-rate, name.lower())`, i.e.
rate descending first, then lowercased name ascending. -/
def stats_key_le (a b : Habit × ℕ × ℚ) : Prop :=
  b.2.2 < a.2.2 ∨ (a.2.2 = b.2.2 ∧ strLE (lower a.1.name) (lower b.1.name) = true)

instance : DecidableRel stats_key_le := fun a b =>
  inferInstanceAs (Decidable (b.2.2 < a.2.2 ∨
    (a.2.2 = b.2.2 ∧ strLE (lower a.1.name) (lower b.1.name) = true)))

instance : IsTotal (Habit × ℕ × ℚ) stats_key_le where
  total a b := by
    rcases lt_trichotomy a.2.2 b.2.2 with h | h | h
    · exact Or.inr (Or.inl h)
    · rcases strLE_total (lower a.1.name) (lower b.1.name) with hs | hs
      · exact Or.inl (Or.inr ⟨h, hs⟩)
      · exact Or.inr (Or.inr ⟨h.symm, hs⟩)
    · exact Or.inl (Or.inl h)

instance : IsTrans (Habit × ℕ × ℚ) stats_key_le where
  trans a b c hab hbc := by
    rcases hab with h1 | ⟨h1, h1s⟩ <;> rcases hbc with h2 | ⟨h2, h2s⟩
    · exact Or.inl (lt_trans h2 h1)
    · exact Or.inl (h2 ▸ h1)
    · exact Or.inl (by rw [h1]; exact h2)
    · exact Or.inr ⟨h1.trans h2, strLE_trans _ _ _ h1s h2s⟩

/-- `per_habit_last_n_days` (src/src/models.py:168-197): one
`(habit, done_count, rate)` triple per stored habit over the last `days`
days, sorted by the key `(-rate, name.lower())`.  `none` models the
`IndexError` raised by `days_list[0]` when `days_back` is empty while
habits exist. -/
def per_habit_last_n_days (habit_list : List Habit) (logs : List LogEntry)
    (days today : ℤ) : Option (List (Habit × ℕ × ℚ)) :=
  if habit_list.isEmpty then some []
  else
    match (days_back days today).head?, (days_back days today).getLast? with
    | some start_day, some end_day =>
        some (List.insertionSort stats_key_le
          (habit_list.map (fun h =>
            (h, count_in_range logs h.id start_day end_day,
              ((count_in_range logs h.id start_day end_day : ℕ) : ℚ) /
                (((days_back days today).length : ℕ) : ℚ)))))
    | _, _ => none

/-- C3: for every day-count `days ≥ 1`, `per_habit_last_n_days` succeeds
and returns exactly one entry per supplied habit (the habits of the output
are a permutation of the stored habits, so a zero-completion habit is never
omitted and by the count formula gets `(habit, 0, 0)`), each entry carrying
`doneCount` = the habit's completion count over `today - (days-1) .. today`
and `rate = doneCount / days`, sorted by rate descending with ties broken
by lowercased name ascending. -/
theorem perHabitInRange_complete_sorted (habit_list : List Habit)
    (logs : List LogEntry) (days today : ℤ) (hdays : 1 ≤ days) :
    (per_habit_last_n_days habit_list logs days today).isSome = true ∧
    List.Perm (((per_habit_last_n_days habit_list logs days today).getD []).map Prod.fst)
      habit_list ∧
    List.Sorted stats_key_le ((per_habit_last_n_days habit_list logs days today).getD []) ∧
    ∀ e ∈ (per_habit_last_n_days habit_list logs days today).getD [],
      e.2.1 = count_in_range logs e.1.id (today - (days - 1)) today ∧
      e.2.2 = ((e.2.1 : ℕ) : ℚ) / ((days : ℤ) : ℚ) := by
  by_cases hemp : habit_list.isEmpty = true
  · have hnil : habit_list = [] := List.isEmpty_iff.mp hemp
    subst hnil
    refine ⟨rfl, by simp [per_habit_last_n_days], by simp [per_habit_last_n_days], ?_⟩
    intro e he
    simp [per_habit_last_n_days] at he
  · have hemp' : habit_list.isEmpty = false := by
      cases h : habit_list.isEmpty
      · rfl
      · exact absurd h hemp
    have hcast : (((days_back days today).length : ℕ) : ℚ) = ((days : ℤ) : ℚ) := by
      rw [days_back_length, ← Int.cast_natCast, Int.toNat_of_nonneg (by omega)]
    have hres : per_habit_last_n_days habit_list logs days today =
        some (List.insertionSort stats_key_le
          (habit_list.map (fun h =>
            (h, count_in_range logs h.id (today - (days - 1)) today,
              ((count_in_range logs h.id (today - (days - 1)) today : ℕ) : ℚ) /
                (((days_back days today).length : ℕ) : ℚ))))) := by
      rw [per_habit_last_n_days, hemp']
      rw [days_back_head? days today hdays, days_back_getLast? days today hdays]
      rfl
    rw [hres]
    simp only [Option.getD_some]
    have hperm := List.perm_insertionSort stats_key_le
      (habit_list.map (fun h =>
        (h, count_in_range logs h.id (today - (days - 1)) today,
          ((count_in_range logs h.id (today - (days - 1)) today : ℕ) : ℚ) /
            (((days_back days today).length : ℕ) : ℚ))))
    refine ⟨rfl, ?_, ?_, ?_⟩
    · have hmapped := hperm.map Prod.fst
      rw [List.map_map] at hmapped
      have hidm : List.map (Prod.fst ∘ fun h : Habit =>
          (h, count_in_range logs h.id (today - (days - 1)) today,
            ((count_in_range logs h.id (today - (days - 1)) today : ℕ) : ℚ) /
              (((days_back days today).length : ℕ) : ℚ))) habit_list =
          List.map id habit_list :=
        List.map_congr_left (fun a _ => rfl)
      rw [hidm, List.map_id] at hmapped
      exact hmapped
    · exact List.sorted_insertionSort stats_key_le _
    · intro e he
      have he2 : e ∈ habit_list.map (fun h =>
          (h, count_in_range logs h.id (today - (days - 1)) today,
            ((count_in_range logs h.id (today - (days - 1)) today : ℕ) : ℚ) /
              (((days_back days today).length : ℕ) : ℚ))) := hperm.mem_iff.mp he
      obtain ⟨h, _, rfl⟩ := List.mem_map.mp he2
      exact ⟨rfl, by rw [hcast]⟩

/-- Witness for C3: two habits "b" (one completion today) and "A" (none)
over a 1-day window; the returned entries cover exactly the two supplied
habits. -/
theorem perHabitInRange_complete_sorted_witness :
    (1 : ℤ) ≤ 1 ∧
    List.Perm
      (((per_habit_last_n_days [⟨1, ['b'], []⟩, ⟨2, ['A'], []⟩] [⟨1, 0, []⟩] 1 0).getD []).map
        Prod.fst)
      [⟨1, ['b'], []⟩, ⟨2, ['A'], []⟩] :=
  ⟨by norm_num,
   (perHabitInRange_complete_sorted [⟨1, ['b'], []⟩, ⟨2, ['A'], []⟩] [⟨1, 0, []⟩] 1 0
     (by norm_num)).2.1⟩

-- ---------------------------------------------------------------------------
-- Best streak (src/src/ui_stats.py:97-128)
-- ---------------------------------------------------------------------------

/-- The full set of done days of a habit, from the unbounded
`SELECT day FROM habit_logs WHERE habit_id = ?` query of `get_best_streak`
(src/src/ui_stats.py:110-118). -/
def all_done_days (logs : List LogEntry) (hid : ℕ) : Finset ℤ :=
  ((logs.filter (fun l => decide (l.habit_id = hid))).map LogEntry.day).toFinset

/-- The loop body of `get_best_streak` (src/src/ui_stats.py:124-126): keep
the incumbent unless the candidate's streak is strictly greater. -/
def best_step (strk : Habit → ℕ) (best : List Char × ℕ) (h : Habit) : List Char × ℕ :=
  if best.2 < strk h then (h.name, strk h) else best

/-- The maximum streak over a candidate list (0 when empty). -/
def max_streak_of (strk : Habit → ℕ) (l : List Habit) : ℕ :=
  (l.map strk).foldr max 0

/-- `get_best_streak` (src/src/ui_stats.py:97-128): fold the strict-update
step over the habits whose name is not "General" (the
`WHERE name != 'General'` of its habit query), starting from
`("None", 0)`. -/
def get_best_streak (habit_list : List Habit) (logs : List LogEntry) (today : ℤ) :
    List Char × ℕ :=
  (habit_list.filter (fun h => h.name != general_name)).foldl
    (best_step (fun h => current_streak (all_done_days logs h.id) today))
    (['N', 'o', 'n', 'e'], 0)

theorem foldl_best_no_update (strk : Habit → ℕ) :
    ∀ (l : List Habit) (b : List Char × ℕ), max_streak_of strk l ≤ b.2 →
      l.foldl (best_step strk) b = b := by
  intro l
  induction l with
  | nil => intro b _; rfl
  | cons h t ih =>
    intro b hle
    have hM : max (strk h) (max_streak_of strk t) ≤ b.2 := hle
    rw [List.foldl_cons, show best_step strk b h = b from
      by rw [best_step, if_neg (by omega)]]
    exact ih b (by omega)

theorem foldl_best_snd (strk : Habit → ℕ) :
    ∀ (l : List Habit) (b : List Char × ℕ),
      (l.foldl (best_step strk) b).2 = max b.2 (max_streak_of strk l) := by
  intro l
  induction l with
  | nil =>
    intro b
    show b.2 = max b.2 0
    omega
  | cons h t ih =>
    intro b
    rw [List.foldl_cons, ih]
    have hstep : (best_step strk b h).2 = max b.2 (strk h) := by
      by_cases hc : b.2 < strk h
      · rw [best_step, if_pos hc]
        show strk h = max b.2 (strk h)
        omega
      · rw [best_step, if_neg hc]
        omega
    rw [hstep]
    show max (max b.2 (strk h)) (max_streak_of strk t) =
      max b.2 (max (strk h) (max_streak_of strk t))
    omega

theorem find_max_isSome (strk : Habit → ℕ) :
    ∀ l : List Habit, 0 < max_streak_of strk l →
      (l.find? (fun h => strk h == max_streak_of strk l)).isSome = true := by
  intro l
  induction l with
  | nil => intro h0; exact absurd h0 (by simp [max_streak_of])
  | cons h t ih =>
    intro hpos
    by_cases heq : strk h = max_streak_of strk (h :: t)
    · rw [List.find?_cons_of_pos _ (by simp [heq])]
      rfl
    · have hMc : max_streak_of strk (h :: t) = max (strk h) (max_streak_of strk t) := rfl
      have hM : max_streak_of strk (h :: t) = max_streak_of strk t := by
        rcases max_choice (strk h) (max_streak_of strk t) with hc | hc
        · exact absurd (hMc.trans hc).symm heq
        · exact hMc.trans hc
      rw [List.find?_cons_of_neg _ (by simp [heq])]
      rw [hM]
      exact ih (by omega)

theorem foldl_best_update (strk : Habit → ℕ) :
    ∀ (l : List Habit) (b : List Char × ℕ), b.2 < max_streak_of strk l →
      l.foldl (best_step strk) b =
        (((l.find? (fun h => strk h == max_streak_of strk l)).map Habit.name).getD b.1,
         max_streak_of strk l) := by
  intro l
  induction l with
  | nil =>
    intro b h0
    exact absurd h0 (by simp [max_streak_of])
  | cons h t ih =>
    intro b hlt
    have hMc : max_streak_of strk (h :: t) = max (strk h) (max_streak_of strk t) := rfl
    rw [List.foldl_cons]
    by_cases hs : b.2 < strk h
    · rw [show best_step strk b h = (h.name, strk h) from by rw [best_step, if_pos hs]]
      by_cases hMt : max_streak_of strk t ≤ strk h
      · have hMeq : max_streak_of strk (h :: t) = strk h := by rw [hMc]; omega
        rw [foldl_best_no_update strk t (h.name, strk h) hMt]
        rw [List.find?_cons_of_pos _ (by simp [hMeq])]
        rw [hMeq]
        rfl
      · push_neg at hMt
        rw [ih (h.name, strk h) hMt]
        have hMeq : max_streak_of strk (h :: t) = max_streak_of strk t := by
          rw [hMc]; omega
        rw [List.find?_cons_of_neg _ (by simp only [beq_iff_eq]; rw [hMeq]; omega)]
        rw [hMeq]
        have hsome := find_max_isSome strk t (by omega)
        obtain ⟨y, hy⟩ := Option.isSome_iff_exists.mp hsome
        rw [hy]
        rfl
    · rw [show best_step strk b h = b from by rw [best_step, if_neg hs]]
      have hMeq : max_streak_of strk (h :: t) = max_streak_of strk t := by
        rw [hMc]; omega
      have hlt' : b.2 < max_streak_of strk t := by rw [hMeq] at hlt; exact hlt
      rw [ih b hlt']
      rw [List.find?_cons_of_neg _ (by simp only [beq_iff_eq]; rw [hMeq]; omega)]
      rw [hMeq]

/-- C4: `get_best_streak` returns the maximum current streak over the
candidate habits (those not named "General") together with the name of the
first candidate in iteration order achieving it; if there are no candidates
or every candidate's streak is 0 it returns `("None", 0)`. -/
theorem bestStreak_max_first_achiever (habit_list : List Habit)
    (logs : List LogEntry) (today : ℤ) :
    get_best_streak habit_list logs today =
      (if max_streak_of (fun h => current_streak (all_done_days logs h.id) today)
            (habit_list.filter (fun h => h.name != general_name)) = 0
       then (['N', 'o', 'n', 'e'], 0)
       else
         ((((habit_list.filter (fun h => h.name != general_name)).find? (fun h =>
               current_streak (all_done_days logs h.id) today ==
                 max_streak_of (fun h => current_streak (all_done_days logs h.id) today)
                   (habit_list.filter (fun h => h.name != general_name)))).map
             Habit.name).getD ['N', 'o', 'n', 'e'],
          max_streak_of (fun h => current_streak (all_done_days logs h.id) today)
            (habit_list.filter (fun h => h.name != general_name)))) := by
  rw [get_best_streak]
  by_cases hm : max_streak_of (fun h => current_streak (all_done_days logs h.id) today)
      (habit_list.filter (fun h => h.name != general_name)) = 0
  · rw [if_pos hm]
    exact foldl_best_no_update _ _ _ (by omega)
  · rw [if_neg hm]
    exact foldl_best_update _ _ _ (by omega)

-- ---------------------------------------------------------------------------
-- Milestone evaluator (src/ui_milestones.py)
-- ---------------------------------------------------------------------------

/-- One milestone card: label, description, the counter value shown as
progress, and the threshold (src/ui_milestones.py:151-166). -/
structure Milestone where
  label : String
  description : String
  progress : ℕ
  target : ℕ

/-- `earned = progress >= target` (src/ui_milestones.py:171). -/
def milestone_earned (m : Milestone) : Bool := decide (m.target ≤ m.progress)

/-- `remaining = target - progress` (src/ui_milestones.py:52), shown for
unearned cards. -/
def milestone_remaining (m : Milestone) : ℕ := m.target - m.progress

/-- The fixed milestone catalog in declared order
(src/ui_milestones.py:151-166): completion thresholds 1/10/50/100/500,
then streak thresholds 7/30/90/365, then habit-count thresholds 5/10/20. -/
def milestone_ladder (total_completions max_streak habit_count : ℕ) : List Milestone :=
  [⟨"First Step", "Complete your first habit", total_completions, 1⟩,
   ⟨"Getting Started", "Complete 10 habits", total_completions, 10⟩,
   ⟨"Building Momentum", "Complete 50 habits", total_completions, 50⟩,
   ⟨"Habit Master", "Complete 100 habits", total_completions, 100⟩,
   ⟨"Legendary", "Complete 500 habits", total_completions, 500⟩,
   ⟨"Week Warrior", "Maintain a 7-day streak", max_streak, 7⟩,
   ⟨"Month Master", "Maintain a 30-day streak", max_streak, 30⟩,
   ⟨"Quarter Champion", "Maintain a 90-day streak", max_streak, 90⟩,
   ⟨"Year Legend", "Maintain a 365-day streak", max_streak, 365⟩,
   ⟨"Habit Collector", "Create 5 habits", habit_count, 5⟩,
   ⟨"Routine Builder", "Create 10 habits", habit_count, 10⟩,
   ⟨"Lifestyle Designer", "Create 20 habits", habit_count, 20⟩]

/-- `_count_earned_milestones` (src/ui_milestones.py:180-202): the chain of
threshold tests, each adding 1 when its counter reaches the target. -/
def count_earned_milestones (total_completions max_streak habit_count : ℕ) : ℕ :=
  0 + (if 1 ≤ total_completions then 1 else 0)
    + (if 10 ≤ total_completions then 1 else 0)
    + (if 50 ≤ total_completions then 1 else 0)
    + (if 100 ≤ total_completions then 1 else 0)
    + (if 500 ≤ total_completions then 1 else 0)
    + (if 7 ≤ max_streak then 1 else 0)
    + (if 30 ≤ max_streak then 1 else 0)
    + (if 90 ≤ max_streak then 1 else 0)
    + (if 365 ≤ max_streak then 1 else 0)
    + (if 5 ≤ habit_count then 1 else 0)
    + (if 10 ≤ habit_count then 1 else 0)
    + (if 20 ≤ habit_count then 1 else 0)

theorem length_filter_cons {α : Type} (p : α → Bool) (a : α) (l : List α) :
    (List.filter p (a :: l)).length =
      (if p a = true then 1 else 0) + (List.filter p l).length := by
  rw [List.filter_cons]
  split
  · simp [Nat.add_comm]
  · simp

/-- C5: for all counter values the milestone evaluation yields the fixed
twelve-entry ladder in declared order (completions 1/10/50/100/500, then
streak days 7/30/90/365, then habit counts 5/10/20), each entry earned
exactly when its counter reaches its target and with remaining distance
`target - progress`; `_count_earned_milestones` agrees with the number of
earned ladder entries; and with 10 lifetime completions "First Step" and
"Getting Started" are earned while "Building Momentum" is not, with 40
remaining. -/
theorem milestones_ladder_evaluation (tc ms hc : ℕ) :
    ((milestone_ladder tc ms hc).map (fun m => (m.label, m.progress, m.target)) =
      [("First Step", tc, 1), ("Getting Started", tc, 10), ("Building Momentum", tc, 50),
       ("Habit Master", tc, 100), ("Legendary", tc, 500),
       ("Week Warrior", ms, 7), ("Month Master", ms, 30), ("Quarter Champion", ms, 90),
       ("Year Legend", ms, 365),
       ("Habit Collector", hc, 5), ("Routine Builder", hc, 10),
       ("Lifestyle Designer", hc, 20)]) ∧
    ((milestone_ladder tc ms hc).map milestone_earned =
      [decide (1 ≤ tc), decide (10 ≤ tc), decide (50 ≤ tc), decide (100 ≤ tc),
       decide (500 ≤ tc), decide (7 ≤ ms), decide (30 ≤ ms), decide (90 ≤ ms),
       decide (365 ≤ ms), decide (5 ≤ hc), decide (10 ≤ hc), decide (20 ≤ hc)]) ∧
    ((milestone_ladder tc ms hc).map milestone_remaining =
      [1 - tc, 10 - tc, 50 - tc, 100 - tc, 500 - tc, 7 - ms, 30 - ms, 90 - ms,
       365 - ms, 5 - hc, 10 - hc, 20 - hc]) ∧
    (count_earned_milestones tc ms hc =
      ((milestone_ladder tc ms hc).filter milestone_earned).length) ∧
    (((milestone_ladder 10 ms hc).take 3).map
        (fun m => (milestone_earned m, milestone_remaining m)) =
      [(true, 0), (true, 0), (false, 40)]) := by
  refine ⟨rfl, rfl, rfl, ?_, rfl⟩
  simp only [milestone_ladder, length_filter_cons, List.filter_nil, List.length_nil,
    milestone_earned, decide_eq_true_eq]
  rw [count_earned_milestones]
  omega

-- ---------------------------------------------------------------------------
-- C2: milestones exclude "General" (src/ui_milestones.py:112-178)
-- ---------------------------------------------------------------------------

/-- The milestones tab's `refresh` (src/ui_milestones.py:112-178): drop the
"General" habit, accumulate total completions since 2000-01-01 and the
maximum current streak over the remaining habits, and build the ladder
(no cards at all when no habits remain). -/
def milestones_refresh (habit_list : List Habit) (logs : List LogEntry)
    (today : ℤ) : List Milestone :=
  let hs := habit_list.filter (fun h => h.name != general_name)
  if hs.isEmpty then []
  else
    milestone_ladder
      ((hs.map (fun h => (get_done_days_in_range logs h.id day2000 today).length)).sum)
      (hs.foldl (fun m h =>
        if m < models_current_streak logs h.id today
        then models_current_streak logs h.id today else m) 0)
      hs.length

theorem filter_general_logs_nil (glogs : List LogEntry) (gid hid : ℕ) (s e : ℤ)
    (hlogs : ∀ l ∈ glogs, l.habit_id = gid) (hne : hid ≠ gid) :
    glogs.filter (fun l => decide (l.habit_id = hid ∧ s ≤ l.day ∧ l.day ≤ e)) = [] := by
  rw [List.filter_eq_nil_iff]
  intro l hl
  simp only [decide_eq_true_eq]
  intro hc
  exact hne ((hlogs l hl ▸ hc.1).symm ▸ rfl)

theorem get_done_days_append_general (logs glogs : List LogEntry) (gid hid : ℕ)
    (s e : ℤ) (hlogs : ∀ l ∈ glogs, l.habit_id = gid) (hne : hid ≠ gid) :
    (get_done_days_in_range (glogs ++ logs) hid s e).length =
      (get_done_days_in_range logs hid s e).length ∧
    (get_done_days_in_range (glogs ++ logs) hid s e).toFinset =
      (get_done_days_in_range logs hid s e).toFinset := by
  have hnil := filter_general_logs_nil glogs gid hid s e hlogs hne
  constructor
  · rw [get_done_days_length, get_done_days_length, count_in_range, count_in_range,
      List.filter_append, hnil, List.nil_append]
  · rw [get_done_days_toFinset, get_done_days_toFinset,
      List.filter_append, hnil, List.nil_append]

theorem foldl_congr_mem {α β : Type} (f g : β → α → β) :
    ∀ (l : List α) (b : β), (∀ x ∈ l, ∀ y, f y x = g y x) →
      l.foldl f b = l.foldl g b := by
  intro l
  induction l with
  | nil => intros; rfl
  | cons h t ih =>
    intro b hfg
    rw [List.foldl_cons, List.foldl_cons, hfg h (by simp)]
    exact ih _ (fun x hx y => hfg x (by simp [hx]) y)

/-- C2 (amended): the milestone evaluation is unchanged by adding the
reserved "General" habit and its completion records (its `refresh` filters
the habit out and, the habit having a fresh id, none of its records enters
any remaining habit's counts); the models-layer `stats_for_range` and
`per_habit_last_n_days`, however, do include "General"
(`general_not_excluded_from_stats`). -/
theorem milestones_unchanged_by_general (l1 l2 : List Habit)
    (logs glogs : List LogEntry) (today : ℤ) (gh : Habit)
    (hname : gh.name = general_name)
    (hlogs : ∀ l ∈ glogs, l.habit_id = gh.id)
    (hids : ∀ h ∈ l1 ++ l2, h.id ≠ gh.id) :
    milestones_refresh (l1 ++ gh :: l2) (glogs ++ logs) today =
      milestones_refresh (l1 ++ l2) logs today := by
  have hgh : (gh.name != general_name) = false := by rw [hname]; simp
  have hfilter : (l1 ++ gh :: l2).filter (fun h => h.name != general_name) =
      (l1 ++ l2).filter (fun h => h.name != general_name) := by
    rw [List.filter_append, List.filter_append, List.filter_cons, hgh]
    simp
  rw [milestones_refresh, milestones_refresh, hfilter]
  by_cases hemp : ((l1 ++ l2).filter (fun h => h.name != general_name)).isEmpty = true
  · simp only [hemp, if_true]
  · have hemp' : ((l1 ++ l2).filter (fun h => h.name != general_name)).isEmpty = false := by
      cases h : ((l1 ++ l2).filter (fun h => h.name != general_name)).isEmpty
      · rfl
      · exact absurd h hemp
    simp only [hemp', Bool.false_eq_true, if_false]
    have hmem_ne : ∀ h ∈ (l1 ++ l2).filter (fun h => h.name != general_name),
        h.id ≠ gh.id := fun h hmem => hids h (List.mem_filter.mp hmem).1
    have hsum : (((l1 ++ l2).filter (fun h => h.name != general_name)).map
          (fun h => (get_done_days_in_range (glogs ++ logs) h.id day2000 today).length)).sum =
        (((l1 ++ l2).filter (fun h => h.name != general_name)).map
          (fun h => (get_done_days_in_range logs h.id day2000 today).length)).sum := by
      congr 1
      apply List.map_congr_left
      intro h hmem
      exact (get_done_days_append_general logs glogs gh.id h.id day2000 today
        hlogs (hmem_ne h hmem)).1
    have hstreak : ∀ h ∈ (l1 ++ l2).filter (fun h => h.name != general_name),
        models_current_streak (glogs ++ logs) h.id today =
          models_current_streak logs h.id today := by
      intro h hmem
      rw [models_current_streak, models_current_streak,
        (get_done_days_append_general logs glogs gh.id h.id day0001 today
          hlogs (hmem_ne h hmem)).2]
    have hmax : ((l1 ++ l2).filter (fun h => h.name != general_name)).foldl
          (fun m h => if m < models_current_streak (glogs ++ logs) h.id today
            then models_current_streak (glogs ++ logs) h.id today else m) 0 =
        ((l1 ++ l2).filter (fun h => h.name != general_name)).foldl
          (fun m h => if m < models_current_streak logs h.id today
            then models_current_streak logs h.id today else m) 0 := by
      apply foldl_congr_mem
      intro x hx y
      rw [hstreak x hx]
    rw [hsum, hmax]

/-- Witness for the amended C2: adding the "General" habit (id 2) and one
of its completion records to a store with habit "a" (id 1, done today)
leaves the milestone cards untouched. -/
theorem milestones_unchanged_by_general_witness :
    milestones_refresh ([] ++ ⟨2, general_name, []⟩ :: [⟨1, ['a'], []⟩])
        ([⟨2, 0, []⟩] ++ [⟨1, 0, []⟩]) 0 =
      milestones_refresh ([] ++ [⟨1, ['a'], []⟩]) [⟨1, 0, []⟩] 0 :=
  milestones_unchanged_by_general [] [⟨1, ['a'], []⟩] [⟨1, 0, []⟩] [⟨2, 0, []⟩] 0
    ⟨2, general_name, []⟩ rfl (by decide) (by decide)

-- ---------------------------------------------------------------------------
-- C10: add_note validation (src/src/models.py:114-127) and the UI clamp
-- (src/src/ui_notes.py:60-88)
-- ---------------------------------------------------------------------------

/-- The whitespace set of Python's default `str.strip()` (ASCII part). -/
def py_whitespace (c : Char) : Bool :=
  c == ' ' || c == '\t' || c == '\n' || c == '\r' ||
    c == Char.ofNat 11 || c == Char.ofNat 12

/-- Python's `content.strip()`: drop whitespace from both ends. -/
def py_strip (s : List Char) : List Char :=
  ((s.dropWhile py_whitespace).reverse.dropWhile py_whitespace).reverse

/-- `add_note` (src/src/models.py:114-127): strip the content, raise
`ValueError` (modelled by `Except.error`) when the result is empty,
otherwise insert and return the note with the stripped content.  The fresh
row id is passed in as `new_id` (`cur.lastrowid`). -/
def add_note (new_id hid : ℕ) (content : List Char) (now : List Char) :
    Except Unit Note :=
  if (py_strip content).isEmpty then Except.error ()
  else Except.ok ⟨new_id, hid, py_strip content, now⟩

/-- `_update_char_count` (src/src/ui_notes.py:60-88): the editor text is
truncated to 150 characters whenever it grows longer. -/
def update_char_count (text : List Char) : List Char :=
  if 150 < text.length then text.take 150 else text

/-- C10: `add_note` fails exactly when its content strips to the empty
string; any content with non-empty stripped form — of any length, in
particular beyond 150 characters — is accepted and stored stripped,
verbatim; the 150-character clamp lives only in the notes-tab input layer
(`update_char_count`), whose output never exceeds 150 characters. -/
theorem addNote_validation (new_id hid : ℕ) (content now text : List Char) :
    (add_note new_id hid content now = Except.error () ↔ py_strip content = []) ∧
    (py_strip content ≠ [] →
      add_note new_id hid content now =
        Except.ok ⟨new_id, hid, py_strip content, now⟩) ∧
    (update_char_count text).length ≤ 150 := by
  refine ⟨⟨?_, ?_⟩, ?_, ?_⟩
  · intro h
    by_cases hc : (py_strip content).isEmpty = true
    · exact List.isEmpty_iff.mp hc
    · rw [add_note, if_neg hc] at h
      exact absurd h (by simp)
  · intro h
    rw [add_note, if_pos (by rw [h]; rfl)]
  · intro h
    rw [add_note, if_neg (by simpa [List.isEmpty_iff] using h)]
  · by_cases hl : 150 < text.length
    · rw [update_char_count, if_pos hl, List.length_take]
      omega
    · rw [update_char_count, if_neg hl]
      omega

set_option maxRecDepth 4000 in
/-- Witness for C10: a 151-character content (strictly beyond the UI's
150-character clamp) strips to itself and is accepted and stored verbatim
by `add_note`, while the UI layer would have truncated it to 150. -/
theorem addNote_validation_witness :
    py_strip (List.replicate 151 'a') = List.replicate 151 'a' ∧
    150 < (List.replicate 151 'a').length ∧
    add_note 7 1 (List.replicate 151 'a') [] =
      Except.ok ⟨7, 1, py_strip (List.replicate 151 'a'), []⟩ ∧
    (update_char_count (List.replicate 151 'a')).length ≤ 150 := by
  refine ⟨by decide, by decide, ?_, ?_⟩
  · exact (addNote_validation 7 1 (List.replicate 151 'a') [] []).2.1 (by decide)
  · exact (addNote_validation 7 1 (List.replicate 151 'a') []
      (List.replicate 151 'a')).2.2
